import Mathlib

set_option maxHeartbeats 1000000
set_option maxRecDepth 100000

namespace FloorRef

/-
Shallow embedding of the search core of src/assets/js/site.js
(normalize, levenshtein, overlapScore, searchIndex, getDidYouMeanSuggestions).

Modelling choices:
  * JS strings are Lean `String`s (lists of characters); `s.length` and
    indexing agree because normalized strings are ASCII.
  * JS numbers: ranking scores are small integers (ℕ); the suggestion
    scores are exact rationals (ℚ) standing for the JS float arithmetic.
  * `toLowerCase` is `Char.toLower` (the basic-latin fragment; characters
    outside `[a-z0-9]` are turned into spaces downstream anyway).
  * `localeCompare(x, y) <= 0` is modelled as code-point lexicographic
    comparison.
  * The stable `Array.prototype.sort` is modelled by insertion sort with
    the comparator's `<= 0` relation: any stable sort is uniquely
    determined by a total preorder comparator plus input order.
-/

/-- The JS whitespace class (regex `\s`, also used by `String.trim`). -/
def isJsSpace (c : Char) : Bool :=
  decide (c.toNat = 32 ∨ c.toNat = 9 ∨ c.toNat = 10 ∨ c.toNat = 11 ∨ c.toNat = 12 ∨
    c.toNat = 13 ∨ c.toNat = 160 ∨ c.toNat = 0x1680 ∨
    (0x2000 ≤ c.toNat ∧ c.toNat ≤ 0x200A) ∨ c.toNat = 0x2028 ∨ c.toNat = 0x2029 ∨
    c.toNat = 0x202F ∨ c.toNat = 0x205F ∨ c.toNat = 0x3000 ∨ c.toNat = 0xFEFF)

/-- The character class `[a-z0-9]` kept by `normalize`. -/
def isLowerAlnum (c : Char) : Bool :=
  decide ((97 ≤ c.toNat ∧ c.toNat ≤ 122) ∨ (48 ≤ c.toNat ∧ c.toNat ≤ 57))

/-- `String.prototype.toLowerCase` on a whole string. -/
def lowerStr (s : String) : String :=
  ⟨s.data.map Char.toLower⟩

/-- `.replace(/[^a-z0-9\s]/g, " ")` (applied after lower-casing). -/
def sanitize (l : List Char) : List Char :=
  l.map (fun c => if isLowerAlnum c || isJsSpace c then c else ' ')

/-- `.replace(/\s+/g, " ")`: every maximal whitespace run becomes one space. -/
def collapseWs : List Char → List Char
  | [] => []
  | [c] => if isJsSpace c then [' '] else [c]
  | c :: d :: rest =>
    if isJsSpace c && isJsSpace d then collapseWs (d :: rest)
    else (if isJsSpace c then ' ' else c) :: collapseWs (d :: rest)

/-- Drop trailing JS whitespace. -/
def trimRight (l : List Char) : List Char :=
  (l.reverse.dropWhile isJsSpace).reverse

/-- `String.prototype.trim`. -/
def trimWs (l : List Char) : List Char :=
  trimRight (l.dropWhile isJsSpace)

/-- `function normalize(str)` of site.js: lower-case, replace every
character outside `[a-z0-9\s]` by a space, collapse whitespace runs,
trim. -/
def normalize (s : String) : String :=
  ⟨trimWs (collapseWs (sanitize (s.data.map Char.toLower)))⟩

/-- `hay.includes(sub)` (JS `String.prototype.includes`) on character
lists: `sub` occurs contiguously inside the second argument. -/
def containsSeq (sub : List Char) : List Char → Bool
  | [] => sub.isEmpty
  | c :: rest => sub.isPrefixOf (c :: rest) || containsSeq sub rest

/-- `hay.includes(sub)` on strings. -/
def strIncludes (hay sub : String) : Bool :=
  containsSeq sub.data hay.data

/-- `String.prototype.split(" ")` on a character list (keeping empty
pieces, as JS does).  It is applied to normalized strings only, where it
coincides with `split(/\s+/)` once the empty pieces are removed by
`filter(Boolean)`. -/
def splitSpAux (acc : List Char) : List Char → List (List Char)
  | [] => [acc.reverse]
  | c :: rest =>
    if c = ' ' then acc.reverse :: splitSpAux [] rest
    else splitSpAux (c :: acc) rest

/-- `normalize(s).split(...).filter(Boolean)`: the whitespace-split tokens
of the normalized string. -/
def tokens (s : String) : List (List Char) :=
  (splitSpAux [] (normalize s).data).filter (fun w => !w.isEmpty)

/-- One inner loop (`j = 1..n`) of the levenshtein dp.  `x` is the current
character `a[i-1]`; the first list holds the remaining characters of `b`;
the second holds the previous dp row from column `j-1` on; `left` is
`dp[i][j-1]`.  Each produced cell is
`min(dp[i-1][j] + 1, dp[i][j-1] + 1, dp[i-1][j-1] + cost)`. -/
def levRowNext (x : Char) : List Char → List Nat → Nat → List Nat
  | y :: ys, p0 :: p1 :: ps, left =>
    let cost := if x = y then 0 else 1
    let cell := min (p1 + 1) (min (left + 1) (p0 + cost))
    cell :: levRowNext x ys (p1 :: ps) cell
  | _, _, _ => []

/-- The outer loop (`i = 1..m`) of the levenshtein dp: fold over the
characters of `a`, carrying the current row (row `i` starts with
`dp[i][0] = i`). -/
def levRowsAux (b : List Char) : List Char → List Nat → Nat → List Nat
  | [], row, _ => row
  | x :: xs, row, i => levRowsAux b xs ((i + 1) :: levRowNext x b row (i + 1)) (i + 1)

/-- `function levenshtein(a, b)` of site.js: normalize both inputs; if
either is empty return the larger length; otherwise run the dp and read
`dp[m][n]` (the last entry of the last row). -/
def levenshtein (a b : String) : Nat :=
  let na := normalize a
  let nb := normalize b
  if na.length = 0 ∨ nb.length = 0 then max na.length nb.length
  else (levRowsAux nb.data na.data (List.range (nb.length + 1)) 0).getLastD 0

/-- An entry of /search-index.json as consumed by site.js (the `|| ""`
and `|| []` guards of the source make every field total). -/
structure IndexEntry where
  title : String
  url : String
  snippet : String
  keywords : List String
deriving DecidableEq, Repr

/-- An index entry together with its transient `__score`. -/
structure ScoredEntry where
  entry : IndexEntry
  score : Nat
deriving DecidableEq, Repr

/-- Lexicographic comparison of code-point sequences (`true` iff first
argument is less or equal). -/
def lexLe : List Nat → List Nat → Bool
  | [], _ => true
  | _ :: _, [] => false
  | a :: as, b :: bs => if a < b then true else if b < a then false else lexLe as bs

/-- Model of `x.localeCompare(y) <= 0`. -/
def titleLe (x y : String) : Bool :=
  lexLe (x.data.map Char.toNat) (y.data.map Char.toNat)

/-- The sort relation of `searchIndex`: `a` may come before `b` iff the
JS comparator `(a, b) => b.__score - a.__score || a.title.localeCompare(b.title)`
is `<= 0`: descending score, ties by ascending title. -/
def rankRel (a b : ScoredEntry) : Prop :=
  b.score < a.score ∨ (b.score = a.score ∧ titleLe a.entry.title b.entry.title = true)

instance : DecidableRel rankRel := fun a b => by
  unfold rankRel
  infer_instance

/-- The `// extra: partial token matches` bonus of `searchIndex`:
`min(2, tokenHits)` where `tokenHits` counts the normalized query tokens
(with multiplicity) occurring inside the lower-cased
`title + keywords` haystack; `0` when there are no query tokens. -/
def tokenBonus (item : IndexEntry) (query : String) : Nat :=
  let qTokens := tokens query
  if !qTokens.isEmpty then
    let hay := lowerStr (String.intercalate " " (item.title :: item.keywords))
    min 2 (qTokens.countP (fun t => containsSeq t hay.data))
  else 0

/-- The per-entry score of `searchIndex`: `+4` title substring, `+3` some
keyword substring, `+1` url substring, plus the token bonus. -/
def entryScore (item : IndexEntry) (query : String) : Nat :=
  let q := lowerStr query
  let title := lowerStr item.title
  let url := lowerStr item.url
  let keywords := item.keywords.map lowerStr
  (if strIncludes title q then 4 else 0) +
    (if keywords.any (fun k => strIncludes k q) then 3 else 0) +
    (if strIncludes url q then 1 else 0) +
    tokenBonus item query

/-- `function searchIndex(index, query)` of site.js: score every entry,
drop the zero scores, sort by descending score with ties by ascending
title. -/
def searchIndex (index : List IndexEntry) (query : String) : List ScoredEntry :=
  List.insertionSort rankRel
    ((index.map (fun item => ScoredEntry.mk item (entryScore item query))).filter
      (fun x => decide (0 < x.score)))

/-- `function overlapScore(q, hay)` of site.js: fraction of query tokens
hitting some haystack token by bidirectional substring containment. -/
def overlapScore (q hay : String) : ℚ :=
  let qWords := tokens q
  let hWords := tokens hay
  if qWords.isEmpty || hWords.isEmpty then 0
  else
    let hits := qWords.countP (fun w => hWords.any (fun hw => containsSeq w hw || containsSeq hw w))
    (hits : ℚ) / (max qWords.length hWords.length : ℚ)

/-- The typo bonus of `getDidYouMeanSuggestions`: `0.25` at distance `<= 2`,
`0.15` at distance `<= 3`, else `0`. -/
def typoBonus (dist : Nat) : ℚ :=
  if dist ≤ 2 then 1/4 else if dist ≤ 3 then 3/20 else 0

/-- The sort relation of `getDidYouMeanSuggestions`: the JS comparator
`(a, b) => b.score - a.score` is `<= 0`, i.e. descending score. -/
def suggestRel (a b : IndexEntry × ℚ) : Prop :=
  b.2 ≤ a.2

instance : DecidableRel suggestRel := fun a b => by
  unfold suggestRel
  infer_instance

/-- The per-entry combined score of `getDidYouMeanSuggestions` (`q` is the
already-normalized query, exactly as in the source): token overlap against
the trimmed `title + " " + joined keywords` haystack plus the typo bonus
from the edit distance to the title. -/
def suggestionScore (item : IndexEntry) (q : String) : ℚ :=
  let title := item.title
  let keywords := String.intercalate " " item.keywords
  let hay : String := ⟨trimWs (title ++ " " ++ keywords).data⟩
  overlapScore q hay + typoBonus (levenshtein q title)

/-- `function getDidYouMeanSuggestions(index, query, limit)` of site.js.
The JS default argument is `limit = 3`; callers in the source pass `3`
explicitly. -/
def getDidYouMeanSuggestions (index : List IndexEntry) (query : String) (limit : Nat) :
    List IndexEntry :=
  let q := normalize query
  if q.length < 2 then []
  else
    ((List.insertionSort suggestRel
      ((index.map (fun item => (item, suggestionScore item q))).filter
        (fun x => decide ((7 : ℚ)/20 ≤ x.2)))).take limit).map (fun x => x.1)

/-- Classic Levenshtein distance: the textbook recursion on the front of
both lists (unit-cost insert, delete, substitute).  This is the
mathematical reference point for claim C6, defined independently of the
dp table of the source. -/
def levSpec : List Char → List Char → Nat
  | [], ys => ys.length
  | x :: xs, [] => (x :: xs).length
  | x :: xs, y :: ys =>
    min (levSpec xs (y :: ys) + 1)
      (min (levSpec (x :: xs) ys + 1) (levSpec xs ys + (if x = y then 0 else 1)))
termination_by xs ys => xs.length + ys.length

/-- All extensions of a prefix `done` by successive characters of `ys`:
the list `[done, done ++ [y1], ..., done ++ ys]` (proof device relating a
dp row to the classic distance). -/
def exts (done : List Char) : List Char → List (List Char)
  | [] => [done]
  | y :: ys => done :: exts (done ++ [y]) ys

/-- Division that signals the JS hazard `0 / 0 = NaN` by `none`. -/
def safeDiv (a b : ℚ) : Option ℚ :=
  if b = 0 then none else some (a / b)

/-- `overlapScore` with its division checked: a `none` result would mean
the JS code divided by zero (producing `NaN`). -/
def overlapScoreChecked (q hay : String) : Option ℚ :=
  let qWords := tokens q
  let hWords := tokens hay
  if qWords.isEmpty || hWords.isEmpty then some 0
  else
    let hits := qWords.countP (fun w => hWords.any (fun hw => containsSeq w hw || containsSeq hw w))
    safeDiv (hits : ℚ) (max qWords.length hWords.length : ℚ)

/-- `levRowNext` with the dp-array reads checked: a `none` result would
mean the JS inner loop read `dp[i-1][j]` or `dp[i-1][j-1]` out of bounds
(yielding `undefined` and hence `NaN`). -/
def levRowNextChecked (x : Char) : List Char → List Nat → Nat → Option (List Nat)
  | [], [_], _ => some []
  | y :: ys, p0 :: p1 :: ps, left =>
    let cost := if x = y then 0 else 1
    let cell := min (p1 + 1) (min (left + 1) (p0 + cost))
    (levRowNextChecked x ys (p1 :: ps) cell).map (fun r => cell :: r)
  | _, _, _ => none

/-- `levRowsAux` with every row transition checked. -/
def levRowsAuxChecked (b : List Char) : List Char → List Nat → Nat → Option (List Nat)
  | [], row, _ => some row
  | x :: xs, row, i =>
    (levRowNextChecked x b row (i + 1)).bind
      (fun r => levRowsAuxChecked b xs ((i + 1) :: r) (i + 1))

/-- `levenshtein` with the dp accesses and the final `dp[m][n]` read
checked (`none` would be an out-of-bounds read in the source). -/
def levenshteinChecked (a b : String) : Option Nat :=
  let na := normalize a
  let nb := normalize b
  if na.length = 0 ∨ nb.length = 0 then some (max na.length nb.length)
  else (levRowsAuxChecked nb.data na.data (List.range (nb.length + 1)) 0).bind
    (fun row => row.getLast?)

/-- The token bonus as claim C3 words it: `min(2, hitCount)` where
`hitCount` counts DISTINCT query tokens occurring in the haystack (a
repeated query token contributes at most one hit). -/
def claimTokenBonus (item : IndexEntry) (query : String) : Nat :=
  let hay := lowerStr (String.intercalate " " (item.title :: item.keywords))
  min 2 ((tokens query).dedup.countP (fun t => containsSeq t hay.data))

/-- The suggestion engine as the spec words it (section 4.5 / claim C4):
combined score `overlap(query, title + " " + joined keywords) +
typoBonus(distance(query, title))` on the raw query and the untrimmed
haystack, threshold `0.35`, stable descending sort, first `limit`
entries. -/
def specSuggest (index : List IndexEntry) (query : String) (limit : Nat) : List IndexEntry :=
  if (normalize query).length < 2 then []
  else
    ((List.insertionSort suggestRel
      ((index.map (fun item =>
        (item, overlapScore query (item.title ++ " " ++ String.intercalate " " item.keywords) +
          typoBonus (levenshtein query item.title)))).filter
        (fun x => decide ((7 : ℚ)/20 ≤ x.2)))).take limit).map (fun x => x.1)

/-- The raw index sorted by ascending title comparison (what claim C10
asserts `searchIndex` returns on the empty query). -/
def sortByTitleAsc (index : List IndexEntry) : List IndexEntry :=
  List.insertionSort (fun a b => titleLe a.title b.title = true) index

/-- The two-entry index of the spec's worked examples (claims C1). -/
def lvtEntry : IndexEntry :=
  ⟨"Luxury Vinyl Tile (LVT)", "/materials/lvt/", "", ["lvt", "vinyl", "wear layer"]⟩

def lamEntry : IndexEntry :=
  ⟨"Laminate Flooring", "/materials/laminate/", "", ["laminate", "hdf core"]⟩

def specIndex : List IndexEntry := [lvtEntry, lamEntry]

/-- Fixture for claim C3: an entry whose haystack contains the (repeated)
query token. -/
def dupTokenEntry : IndexEntry := ⟨"a", "u", "", []⟩

/-- Fixtures for claim C2: the suggestion `floorEntry` is outranked on its
own title by `floorXEntry`, which carries a matching keyword. -/
def floorEntry : IndexEntry := ⟨"floor", "u", "", []⟩

def floorXEntry : IndexEntry := ⟨"floor x", "u", "", ["floor"]⟩

def roundTripIndex : List IndexEntry := [floorEntry, floorXEntry]

/-- Fixtures for claim C10: on the empty query the keyword-bearing entry
scores 8 and outranks the keyword-less entry with the smaller title. -/
def kwEntry : IndexEntry := ⟨"b", "u", "", ["k"]⟩

def plainEntry : IndexEntry := ⟨"a", "u", "", []⟩

def emptyQueryIndex : List IndexEntry := [kwEntry, plainEntry]

/-! ## Basic facts about the embedded primitives -/

theorem isPrefixOf_self (l : List Char) : l.isPrefixOf l = true := by
  induction l with
  | nil => rfl
  | cons c t ih => simp [List.isPrefixOf, ih]

theorem containsSeq_self (l : List Char) : containsSeq l l = true := by
  cases l with
  | nil => rfl
  | cons c t => simp [containsSeq, isPrefixOf_self]

theorem containsSeq_nil (l : List Char) : containsSeq [] l = true := by
  induction l with
  | nil => rfl
  | cons c t ih => simp [containsSeq, ih]

theorem lexLe_total (a : List Nat) : ∀ b : List Nat, lexLe a b = true ∨ lexLe b a = true := by
  induction a with
  | nil => intro b; left; rfl
  | cons x xs ih =>
    intro b
    cases b with
    | nil => right; rfl
    | cons y ys =>
      by_cases h1 : x < y
      · left; simp [lexLe, h1]
      · by_cases h2 : y < x
        · right; simp [lexLe, h2]
        · have hxy : x = y := by omega
          subst hxy
          rcases ih ys with h | h
          · left; simpa [lexLe] using h
          · right; simpa [lexLe] using h

theorem lexLe_trans (a : List Nat) :
    ∀ b c : List Nat, lexLe a b = true → lexLe b c = true → lexLe a c = true := by
  induction a with
  | nil => intro b c _ _; rfl
  | cons x xs ih =>
    intro b c hab hbc
    cases b with
    | nil => simp [lexLe] at hab
    | cons y ys =>
      cases c with
      | nil => simp [lexLe] at hbc
      | cons z zs =>
        simp only [lexLe] at hab hbc ⊢
        split_ifs at hab hbc ⊢ <;>
          first
            | rfl
            | omega
            | exact ih ys zs hab hbc

theorem titleLe_total (x y : String) : titleLe x y = true ∨ titleLe y x = true :=
  lexLe_total _ _

theorem titleLe_trans {x y z : String} (h1 : titleLe x y = true) (h2 : titleLe y z = true) :
    titleLe x z = true :=
  lexLe_trans _ _ _ h1 h2

theorem rankRel_total : ∀ a b : ScoredEntry, rankRel a b ∨ rankRel b a := by
  intro a b
  unfold rankRel
  rcases Nat.lt_trichotomy a.score b.score with h | h | h
  · right; left; exact h
  · rcases titleLe_total a.entry.title b.entry.title with ht | ht
    · left; right; exact ⟨h.symm, ht⟩
    · right; right; exact ⟨h, ht⟩
  · left; left; exact h

theorem rankRel_trans : ∀ a b c : ScoredEntry, rankRel a b → rankRel b c → rankRel a c := by
  intro a b c hab hbc
  unfold rankRel at hab hbc ⊢
  rcases hab with h1 | ⟨e1, t1⟩
  · rcases hbc with h2 | ⟨e2, t2⟩
    · left; omega
    · left; omega
  · rcases hbc with h2 | ⟨e2, t2⟩
    · left; omega
    · right; exact ⟨by omega, titleLe_trans t1 t2⟩

theorem suggestRel_total : ∀ a b : IndexEntry × ℚ, suggestRel a b ∨ suggestRel b a := by
  intro a b
  unfold suggestRel
  exact le_total b.2 a.2

theorem suggestRel_trans : ∀ a b c : IndexEntry × ℚ, suggestRel a b → suggestRel b c → suggestRel a c := by
  intro a b c hab hbc
  exact le_trans hbc hab

/-! ## Claim C5 -/

/-- Claim C5: for every index and query, `searchIndex` returns no entry
with score 0 (such entries are filtered out), and the result is sorted by
descending score with ties broken by ascending title comparison
(the `rankRel` relation). -/
theorem c5_rank_excludes_zero_and_sorted (index : List IndexEntry) (query : String) :
    ¬(0 ∈ (searchIndex index query).map (fun x => x.score)) ∧
      List.Pairwise rankRel (searchIndex index query) := by
  constructor
  · intro hmem
    rcases List.mem_map.mp hmem with ⟨se, hse, h0⟩
    have hf : se ∈ (index.map (fun item => ScoredEntry.mk item (entryScore item query))).filter
        (fun x => decide (0 < x.score)) := (List.mem_insertionSort rankRel).mp hse
    have hpos := List.of_mem_filter hf
    simp only [decide_eq_true_eq] at hpos
    omega
  · haveI : IsTotal ScoredEntry rankRel := ⟨rankRel_total⟩
    haveI : IsTrans ScoredEntry rankRel := ⟨rankRel_trans⟩
    exact List.sorted_insertionSort rankRel _

/-! ## Claim C3 -/

/-- Claim C3 as stated is false: the token bonus counts query tokens with
multiplicity, not distinct query tokens.  For the entry with title "a" and
the query "a a" the source adds `min(2, 2) = 2`, while the claimed
distinct-token count gives `min(2, 1) = 1`. -/
theorem c3_counterexample :
    tokenBonus dupTokenEntry "a a" = 2 ∧ claimTokenBonus dupTokenEntry "a a" = 1 := by
  exact ⟨by decide, by decide⟩

/-- Claim C3 amended: the additional token bonus equals
`min(2, hitCount)` where `hitCount` counts the whitespace-split tokens of
the normalized query WITH MULTIPLICITY (a repeated query token is counted
each time it occurs) that occur as substrings of the lower-cased haystack
built from the title and all keywords. -/
theorem c3_amended (item : IndexEntry) (query : String) :
    tokenBonus item query =
      min 2 ((tokens query).countP (fun t =>
        containsSeq t (lowerStr (String.intercalate " " (item.title :: item.keywords))).data)) := by
  unfold tokenBonus
  by_cases h : (tokens query).isEmpty
  · have hnil : tokens query = [] := by simpa [List.isEmpty_iff] using h
    simp [h, hnil]
  · simp [h]

/-! ## Claim C10 -/

theorem tokens_empty : tokens "" = [] := rfl

theorem tokenBonus_empty (e : IndexEntry) : tokenBonus e "" = 0 := rfl

theorem entryScore_empty (e : IndexEntry) :
    entryScore e "" = if e.keywords.isEmpty then 5 else 8 := by
  unfold entryScore
  have h1 : strIncludes (lowerStr e.title) (lowerStr "") = true := containsSeq_nil _
  have h2 : strIncludes (lowerStr e.url) (lowerStr "") = true := containsSeq_nil _
  simp only [h1, h2, tokenBonus_empty, if_true]
  cases hk : e.keywords with
  | nil => simp [hk]
  | cons k ks =>
    have h3 : strIncludes (lowerStr k) (lowerStr "") = true := containsSeq_nil _
    simp [hk, h3]

/-- Claim C10 as stated is false: on the empty query the result is NOT
the index sorted by ascending title.  Entries that carry a keyword score
8 against the keyword-less score 5, so the keyword-bearing entry with
title "b" is ranked above the keyword-less entry with title "a". -/
theorem c10_counterexample :
    (searchIndex emptyQueryIndex "").map (fun x => x.entry) ≠ sortByTitleAsc emptyQueryIndex := by
  decide

/-- Claim C10 amended: on the empty query every entry is returned (the
score-0 exclusion removes nothing), each scoring exactly 5 when it has no
keywords (+4 title, +1 url) and 8 when it has at least one keyword (+3
more, since every lower-cased keyword contains the empty string); the
result is those scored entries sorted by descending score with ties by
ascending title, a permutation of the whole index. -/
theorem c10_amended (index : List IndexEntry) :
    searchIndex index "" =
      List.insertionSort rankRel
        (index.map (fun e => ScoredEntry.mk e (if e.keywords.isEmpty then 5 else 8))) ∧
      ((searchIndex index "").map (fun x => x.entry)).Perm index := by
  have hmap : index.map (fun item => ScoredEntry.mk item (entryScore item "")) =
      index.map (fun e => ScoredEntry.mk e (if e.keywords.isEmpty then 5 else 8)) :=
    List.map_congr_left (fun e _ => by rw [entryScore_empty])
  have hfil :
      (index.map (fun e => ScoredEntry.mk e (if e.keywords.isEmpty then 5 else 8))).filter
          (fun x => decide (0 < x.score)) =
        index.map (fun e => ScoredEntry.mk e (if e.keywords.isEmpty then 5 else 8)) := by
    refine List.filter_eq_self.mpr (fun a ha => ?_)
    rcases List.mem_map.mp ha with ⟨e, _, rfl⟩
    by_cases h : e.keywords.isEmpty <;> simp [h]
  have hsx : searchIndex index "" =
      List.insertionSort rankRel
        (index.map (fun e => ScoredEntry.mk e (if e.keywords.isEmpty then 5 else 8))) := by
    unfold searchIndex
    rw [hmap, hfil]
  refine ⟨hsx, ?_⟩
  rw [hsx]
  have hperm := List.perm_insertionSort rankRel
    (index.map (fun e => ScoredEntry.mk e (if e.keywords.isEmpty then 5 else 8)))
  have hperm2 := hperm.map (fun x : ScoredEntry => x.entry)
  have hid : (fun x : ScoredEntry => x.entry) ∘
      (fun e => ScoredEntry.mk e (if e.keywords.isEmpty then 5 else 8)) = id := rfl
  rw [List.map_map, hid, List.map_id] at hperm2
  exact hperm2

/-! ## Claim C1 -/

unseal Rat.mul Rat.inv Rat.add in
/-- Claim C1 as stated is false in its suggestion half: for the two-entry
spec index and query "lvtt", `getDidYouMeanSuggestions` returns the empty
sequence, not the LVT entry, because the LVT entry's combined score is
1/8 < 0.35 (and the Laminate entry's is 0). -/
theorem c1_counterexample :
    getDidYouMeanSuggestions specIndex "lvtt" 3 = [] ∧
      suggestionScore lvtEntry (normalize "lvtt") = 1/8 ∧
      ¬((7 : ℚ)/20 ≤ 1/8) := by
  exact ⟨by decide, by decide, by decide⟩

unseal Rat.mul Rat.inv Rat.add in
/-- Claim C1 amended: for the spec index and the typo query "lvtt",
`searchIndex` returns the empty sequence (no substring or token matches),
and `getDidYouMeanSuggestions` ALSO returns the empty sequence: the LVT
entry's overlap score is 1/8 and its typo bonus is 0 — the edit distance
is taken to the whole normalized title "luxury vinyl tile lvt" (distance
17), not to a close token — so its combined score 1/8 is below the 0.35
threshold, and the Laminate entry scores 0. -/
theorem c1_amended :
    searchIndex specIndex "lvtt" = [] ∧
      getDidYouMeanSuggestions specIndex "lvtt" 3 = [] ∧
      suggestionScore lvtEntry (normalize "lvtt") = 1/8 ∧
      suggestionScore lamEntry (normalize "lvtt") = 0 ∧
      levenshtein "lvtt" lvtEntry.title = 17 := by
  exact ⟨by decide, by decide, by decide, by decide, by decide⟩

/-! ## Claim C2 -/

unseal Rat.mul Rat.inv Rat.add in
/-- Claim C2 as stated is false: the entry with title "floor" is returned
by `getDidYouMeanSuggestions` for the query "floor", but ranking its own
title puts the keyword-bearing entry "floor x" (score 8) first, not the
suggested entry itself (score 5). -/
theorem c2_counterexample :
    floorEntry ∈ getDidYouMeanSuggestions roundTripIndex "floor" 3 ∧
      (searchIndex roundTripIndex floorEntry.title).head? =
        some (ScoredEntry.mk floorXEntry 8) ∧
      floorXEntry ≠ floorEntry := by
  exact ⟨by decide, by decide, by decide⟩

theorem suggest_subset_index {index : List IndexEntry} {query : String} {limit : Nat}
    {e : IndexEntry} (h : e ∈ getDidYouMeanSuggestions index query limit) : e ∈ index := by
  unfold getDidYouMeanSuggestions at h
  by_cases hq : (normalize query).length < 2
  · simp [hq] at h
  · simp only [hq, if_false] at h
    rcases List.mem_map.mp h with ⟨p, hp, rfl⟩
    have hp2 := List.mem_of_mem_take hp
    have hp3 := (List.mem_insertionSort suggestRel).mp hp2
    have hp4 := List.mem_of_mem_filter hp3
    rcases List.mem_map.mp hp4 with ⟨item, hitem, rfl⟩
    exact hitem

theorem self_title_score_pos (e : IndexEntry) : 0 < entryScore e e.title := by
  unfold entryScore
  have h1 : strIncludes (lowerStr e.title) (lowerStr e.title) = true := containsSeq_self _
  simp only [h1, if_true]
  split_ifs <;> omega

/-- Claim C2 amended: every entry returned by `getDidYouMeanSuggestions`
does appear in `searchIndex`'s result for its own title (its self-score is
at least 4, so it is never filtered out), but it need not be the first
element of that result. -/
theorem c2_amended (index : List IndexEntry) (query : String) (limit : Nat) (e : IndexEntry)
    (h : e ∈ getDidYouMeanSuggestions index query limit) :
    ∃ se ∈ searchIndex index e.title, se.entry = e := by
  refine ⟨ScoredEntry.mk e (entryScore e e.title), ?_, rfl⟩
  unfold searchIndex
  refine (List.mem_insertionSort rankRel).mpr ?_
  refine List.mem_filter.mpr ⟨?_, ?_⟩
  · exact List.mem_map.mpr ⟨e, suggest_subset_index h, rfl⟩
  · simpa using self_title_score_pos e

unseal Rat.mul Rat.inv Rat.add in
/-- Witness for the amended claim C2 at a concrete input: the suggested
entry with title "floor" appears in the ranking for its own title. -/
theorem c2_amended_witness :
    ∃ se ∈ searchIndex roundTripIndex floorEntry.title, se.entry = floorEntry :=
  c2_amended roundTripIndex "floor" 3 floorEntry (by decide)

/-! ## Claim C6: the dp table computes the classic Levenshtein distance -/

theorem levSpec_nil_left (ys : List Char) : levSpec [] ys = ys.length := by
  simp only [levSpec]

theorem levSpec_nil_right (xs : List Char) : levSpec xs [] = xs.length := by
  cases xs with
  | nil => simp only [levSpec]
  | cons x t => simp only [levSpec]

theorem levSpec_cons_cons (x y : Char) (xs ys : List Char) :
    levSpec (x :: xs) (y :: ys) =
      min (levSpec xs (y :: ys) + 1)
        (min (levSpec (x :: xs) ys + 1) (levSpec xs ys + (if x = y then 0 else 1))) := by
  simp only [levSpec]

/-- Min-algebra identity behind the snoc recurrence: the two ways of
grouping the nine sub-distances agree. -/
theorem min_grid (A B D E F G H I J c1 c2 : ℕ) :
    min (min (A+1) (min (B+1) (D+c1)) + 1)
      (min (min (E+1) (min (F+1) (G+c1)) + 1)
        (min (H+1) (min (I+1) (J+c1)) + c2)) =
    min (min (A+1) (min (E+1) (H+c2)) + 1)
      (min (min (B+1) (min (F+1) (I+c2)) + 1)
        (min (D+1) (min (G+1) (J+c2)) + c1)) := by
  simp only [← min_add_add_right]
  ring_nf
  ac_rfl

/-- The snoc-recurrence of the classic distance: extending both strings on
the RIGHT obeys the same three-way minimum.  This is what lets the
prefix-oriented dp of the source compute the front-recursive distance. -/
theorem levSpec_snoc (x y : Char) (xs : List Char) : ∀ ys : List Char,
    levSpec (xs ++ [x]) (ys ++ [y]) =
      min (levSpec xs (ys ++ [y]) + 1)
        (min (levSpec (xs ++ [x]) ys + 1) (levSpec xs ys + (if x = y then 0 else 1))) := by
  induction xs with
  | nil =>
    intro ys
    induction ys with
    | nil =>
      simp only [List.nil_append, levSpec_cons_cons, levSpec_nil_left, levSpec_nil_right,
        List.length_cons, List.length_nil]
    | cons z zs ihy =>
      simp only [List.nil_append] at ihy ⊢
      simp only [List.cons_append, levSpec_cons_cons, levSpec_nil_left, List.length_cons,
        List.length_append, List.length_nil, ihy]
      split_ifs <;> omega
  | cons w ws ih =>
    intro ys
    induction ys with
    | nil =>
      have ih0 := ih []
      simp only [List.nil_append] at ih0 ⊢
      simp only [List.cons_append, levSpec_cons_cons, levSpec_nil_right, List.length_cons,
        List.length_append, List.length_nil, ih0]
      split_ifs <;> omega
    | cons z zs ihy =>
      have hT1 : levSpec (ws ++ [x]) (z :: (zs ++ [y])) =
          min (levSpec ws (z :: (zs ++ [y])) + 1)
            (min (levSpec (ws ++ [x]) (z :: zs) + 1)
              (levSpec ws (z :: zs) + (if x = y then 0 else 1))) := by
        simpa only [List.cons_append] using ih (z :: zs)
      have hT2 : levSpec (w :: (ws ++ [x])) (zs ++ [y]) =
          min (levSpec (w :: ws) (zs ++ [y]) + 1)
            (min (levSpec (w :: (ws ++ [x])) zs + 1)
              (levSpec (w :: ws) zs + (if x = y then 0 else 1))) := by
        simpa only [List.cons_append] using ihy
      have hT3 := ih zs
      have e1 : (w :: ws) ++ [x] = w :: (ws ++ [x]) := rfl
      have e2 : (z :: zs) ++ [y] = z :: (zs ++ [y]) := rfl
      rw [e1, e2, levSpec_cons_cons w z (ws ++ [x]) (zs ++ [y]), hT1, hT2, hT3,
        levSpec_cons_cons w z ws (zs ++ [y]), levSpec_cons_cons w z (ws ++ [x]) zs,
        levSpec_cons_cons w z ws zs]
      exact min_grid (levSpec ws (z :: (zs ++ [y]))) (levSpec (ws ++ [x]) (z :: zs))
        (levSpec ws (z :: zs)) (levSpec (w :: ws) (zs ++ [y])) (levSpec (w :: (ws ++ [x])) zs)
        (levSpec (w :: ws) zs) (levSpec ws (zs ++ [y])) (levSpec (ws ++ [x]) zs)
        (levSpec ws zs) (if x = y then 0 else 1) (if w = z then 0 else 1)

theorem levRowNext_cons (x y : Char) (ys : List Char) (p0 p1 : Nat) (ps : List Nat)
    (left : Nat) :
    levRowNext x (y :: ys) (p0 :: p1 :: ps) left =
      min (p1 + 1) (min (left + 1) (p0 + (if x = y then 0 else 1))) ::
        levRowNext x ys (p1 :: ps)
          (min (p1 + 1) (min (left + 1) (p0 + (if x = y then 0 else 1)))) := by
  simp only [levRowNext]

theorem levRowNext_nil (x : Char) (ps : List Nat) (left : Nat) :
    levRowNext x [] ps left = [] := by
  cases ps with
  | nil => simp only [levRowNext]
  | cons p pr => cases pr with
    | nil => simp only [levRowNext]
    | cons q qr => simp only [levRowNext]

theorem exts_nil (done : List Char) : exts done [] = [done] := rfl

theorem exts_cons (done : List Char) (y : Char) (ys : List Char) :
    exts done (y :: ys) = done :: exts (done ++ [y]) ys := rfl

/-- Correctness of one dp row transition: if the previous row holds the
distances from `u` to all extensions of `done`, the next row holds the
distances from `u ++ [x]`. -/
theorem levRowNext_exts (x : Char) (u : List Char) :
    ∀ (ys : List Char) (y : Char) (done : List Char),
      levRowNext x (y :: ys) ((exts done (y :: ys)).map (fun w => levSpec u w))
          (levSpec (u ++ [x]) done) =
        (exts (done ++ [y]) ys).map (fun w => levSpec (u ++ [x]) w) := by
  intro ys
  induction ys with
  | nil =>
    intro y done
    have hcell : min (levSpec u (done ++ [y]) + 1)
        (min (levSpec (u ++ [x]) done + 1) (levSpec u done + (if x = y then 0 else 1))) =
        levSpec (u ++ [x]) (done ++ [y]) := (levSpec_snoc x y u done).symm
    rw [exts_cons, exts_nil, List.map_cons, List.map_singleton, List.map_singleton,
      levRowNext_cons, levRowNext_nil, hcell]
  | cons z zs ih =>
    intro y done
    have hcell : min (levSpec u (done ++ [y]) + 1)
        (min (levSpec (u ++ [x]) done + 1) (levSpec u done + (if x = y then 0 else 1))) =
        levSpec (u ++ [x]) (done ++ [y]) := (levSpec_snoc x y u done).symm
    rw [exts_cons, exts_cons, List.map_cons, List.map_cons, levRowNext_cons, hcell]
    have hrec := ih z (done ++ [y])
    rw [exts_cons, List.map_cons] at hrec
    rw [hrec, List.map_cons]

/-- Correctness of the dp outer loop. -/
theorem levRowsAux_exts (b : List Char) :
    ∀ (xs u : List Char),
      levRowsAux b xs ((exts [] b).map (fun w => levSpec u w)) u.length =
        (exts [] b).map (fun w => levSpec (u ++ xs) w) := by
  intro xs
  induction xs with
  | nil =>
    intro u
    simp [levRowsAux]
  | cons x xs ih =>
    intro u
    have hrow : (u.length + 1) :: levRowNext x b ((exts [] b).map (fun w => levSpec u w))
        (u.length + 1) = (exts [] b).map (fun w => levSpec (u ++ [x]) w) := by
      have hleft : u.length + 1 = levSpec (u ++ [x]) [] := by
        rw [levSpec_nil_right, List.length_append, List.length_cons, List.length_nil]
      cases b with
      | nil =>
        rw [exts_nil, List.map_singleton, List.map_singleton, levRowNext_nil, hleft]
      | cons y bs =>
        rw [hleft, levRowNext_exts x u bs y []]
        rw [exts_cons, List.map_cons]
    rw [levRowsAux, hrow]
    have hlen : (u ++ [x]).length = u.length + 1 := by
      rw [List.length_append, List.length_cons, List.length_nil]
    have := ih (u ++ [x])
    rw [hlen] at this
    rw [this]
    simp [List.append_assoc]

theorem exts_map_length (ys : List Char) :
    ∀ done : List Char, (exts done ys).map List.length = List.range' done.length (ys.length + 1) := by
  induction ys with
  | nil =>
    intro done
    simp [exts_nil, List.range']
  | cons y ys ih =>
    intro done
    rw [exts_cons, List.map_cons, ih (done ++ [y])]
    simp [List.range', List.range'_succ]

theorem range_exts (b : List Char) :
    List.range (b.length + 1) = (exts [] b).map (fun w => levSpec [] w) := by
  have h1 : (exts [] b).map (fun w => levSpec [] w) = (exts [] b).map List.length :=
    List.map_congr_left (fun w _ => levSpec_nil_left w)
  rw [h1, exts_map_length b [], List.range_eq_range']
  rfl

theorem exts_ne_nil (done : List Char) (ys : List Char) : exts done ys ≠ [] := by
  cases ys with
  | nil => simp [exts_nil]
  | cons y t => simp [exts_cons]

theorem exts_map_getLast (u : List Char) (ys : List Char) :
    ∀ done : List Char,
      ((exts done ys).map (fun w => levSpec u w)).getLast? = some (levSpec u (done ++ ys)) := by
  induction ys with
  | nil =>
    intro done
    simp [exts_nil]
  | cons y ys ih =>
    intro done
    rw [exts_cons, List.map_cons]
    rcases hx : exts (done ++ [y]) ys with _ | ⟨e, es⟩
    · exact absurd hx (exts_ne_nil _ _)
    · rw [List.map_cons, List.getLast?_cons_cons, ← List.map_cons, ← hx,
        ih (done ++ [y])]
      simp [List.append_assoc]

/-- The source's levenshtein equals the classic Levenshtein distance of
the normalized strings. -/
theorem levenshtein_eq_levSpec (a b : String) :
    levenshtein a b = levSpec (normalize a).data (normalize b).data := by
  unfold levenshtein
  by_cases h : (normalize a).length = 0 ∨ (normalize b).length = 0
  · rw [if_pos h]
    have hla : (normalize a).length = (normalize a).data.length := rfl
    have hlb : (normalize b).length = (normalize b).data.length := rfl
    rcases h with h | h
    · have hd : (normalize a).data = [] := List.length_eq_zero.mp (hla ▸ h)
      rw [hd, levSpec_nil_left, hla, hd]
      simp
    · have hd : (normalize b).data = [] := List.length_eq_zero.mp (hlb ▸ h)
      rw [hd, levSpec_nil_right, hlb, hd]
      simp
  · rw [if_neg h]
    have hlb : (normalize b).length = (normalize b).data.length := rfl
    rw [hlb, range_exts (normalize b).data]
    have h0 : (0 : Nat) = ([] : List Char).length := rfl
    rw [h0, levRowsAux_exts (normalize b).data (normalize a).data []]
    rw [List.getLastD_eq_getLast?, exts_map_getLast]
    simp

theorem levSpec_comm (xs : List Char) : ∀ ys : List Char, levSpec xs ys = levSpec ys xs := by
  induction xs with
  | nil =>
    intro ys
    rw [levSpec_nil_left, levSpec_nil_right]
  | cons x xs ih =>
    intro ys
    induction ys with
    | nil => rw [levSpec_nil_left, levSpec_nil_right]
    | cons y ys ihy =>
      rw [levSpec_cons_cons, levSpec_cons_cons y x]
      rw [ih (y :: ys), ih ys, ihy]
      have hc : (if x = y then (0 : Nat) else 1) = (if y = x then 0 else 1) := by
        by_cases hxy : x = y
        · simp [hxy]
        · rw [if_neg hxy, if_neg (fun hyx : y = x => hxy hyx.symm)]
      rw [hc]
      omega

theorem levSpec_self (l : List Char) : levSpec l l = 0 := by
  induction l with
  | nil => rw [levSpec_nil_left]; rfl
  | cons x xs ih =>
    rw [levSpec_cons_cons, ih]
    simp

/-- Claim C6: `levenshtein` returns exactly the classic Levenshtein edit
distance (unit-cost insert, delete, substitute, defined by the textbook
recursion `levSpec`) between the normalized inputs; when either
normalized string is empty it returns the length of the other; it is zero
on equal inputs, symmetric, and `distance("", "abc") = 3`. -/
theorem c6_distance (a b : String) :
    levenshtein a b = levSpec (normalize a).data (normalize b).data ∧
      (normalize a = "" → levenshtein a b = (normalize b).length) ∧
      (normalize b = "" → levenshtein a b = (normalize a).length) ∧
      levenshtein a a = 0 ∧
      levenshtein a b = levenshtein b a ∧
      levenshtein "" "abc" = 3 := by
  refine ⟨levenshtein_eq_levSpec a b, ?_, ?_, ?_, ?_, by decide⟩
  · intro h
    rw [levenshtein_eq_levSpec, h]
    rw [show ("" : String).data = [] from rfl, levSpec_nil_left]
    rfl
  · intro h
    rw [levenshtein_eq_levSpec, h]
    rw [show ("" : String).data = [] from rfl, levSpec_nil_right]
    rfl
  · rw [levenshtein_eq_levSpec, levSpec_self]
  · rw [levenshtein_eq_levSpec, levenshtein_eq_levSpec b a, levSpec_comm]

/-- Witness for claim C6: the empty-side hypotheses discharged at the
concrete input pair ("", "abc"). -/
theorem c6_distance_witness :
    levenshtein "" "abc" = (normalize "abc").length ∧
      levenshtein "abc" "" = (normalize "abc").length := by
  exact ⟨(c6_distance "" "abc").2.1 (by decide), (c6_distance "abc" "").2.2.1 (by decide)⟩

/-! ## Claim C7 -/

/-- Claim C7: `overlapScore` returns `hits / max(|q tokens|, |hay tokens|)`
(bidirectional substring containment on the whitespace-split tokens of
the normalized strings, duplicates counted), the result lies in `[0, 1]`,
and it is `0` whenever either token sequence is empty. -/
theorem c7_overlap (q hay : String) :
    overlapScore q hay =
      ((tokens q).countP
          (fun w => (tokens hay).any (fun hw => containsSeq w hw || containsSeq hw w)) : ℚ) /
        (max (tokens q).length (tokens hay).length : ℚ) ∧
      0 ≤ overlapScore q hay ∧ overlapScore q hay ≤ 1 ∧
      (tokens q = [] → overlapScore q hay = 0) ∧
      (tokens hay = [] → overlapScore q hay = 0) := by
  have heq : overlapScore q hay =
      ((tokens q).countP
          (fun w => (tokens hay).any (fun hw => containsSeq w hw || containsSeq hw w)) : ℚ) /
        (max (tokens q).length (tokens hay).length : ℚ) := by
    unfold overlapScore
    by_cases hq : (tokens q).isEmpty
    · have hqn : tokens q = [] := by simpa [List.isEmpty_iff] using hq
      simp [hq, hqn]
    · by_cases hh : (tokens hay).isEmpty
      · have hhn : tokens hay = [] := by simpa [List.isEmpty_iff] using hh
        have hcount : (tokens q).countP
            (fun w => (tokens hay).any (fun hw => containsSeq w hw || containsSeq hw w)) = 0 := by
          refine List.countP_eq_zero.mpr (fun w hw => ?_)
          simp [hhn]
        simp [hq, hh, hcount]
      · simp [hq, hh]
  have hbounds : 0 ≤ overlapScore q hay ∧ overlapScore q hay ≤ 1 := by
    rw [heq]
    constructor
    · positivity
    · by_cases hh : (tokens hay).isEmpty ∧ (tokens q).isEmpty
      · rcases hh with ⟨h1, h2⟩
        have e1 : tokens hay = [] := by simpa [List.isEmpty_iff] using h1
        have e2 : tokens q = [] := by simpa [List.isEmpty_iff] using h2
        simp [e1, e2]
      · have hmaxpos : 0 < max (tokens q).length (tokens hay).length := by
          rcases Decidable.not_and_iff_or_not.mp hh with hc | hc
          · have : tokens hay ≠ [] := by
              simpa [List.isEmpty_iff] using hc
            have := List.length_pos.mpr this
            omega
          · have : tokens q ≠ [] := by
              simpa [List.isEmpty_iff] using hc
            have := List.length_pos.mpr this
            omega
        rw [div_le_one (by exact_mod_cast hmaxpos)]
        have hle : (tokens q).countP
            (fun w => (tokens hay).any (fun hw => containsSeq w hw || containsSeq hw w)) ≤
            max (tokens q).length (tokens hay).length :=
          le_trans (List.countP_le_length _) (le_max_left _ _)
        exact_mod_cast hle
  refine ⟨heq, hbounds.1, hbounds.2, ?_, ?_⟩
  · intro h
    rw [heq, h]
    simp
  · intro h
    rw [heq]
    have hcount : (tokens q).countP
        (fun w => (tokens hay).any (fun hw => containsSeq w hw || containsSeq hw w)) = 0 := by
      refine List.countP_eq_zero.mpr (fun w hw => ?_)
      simp [h]
    rw [hcount]
    simp

/-- Witness for claim C7: the empty-token hypotheses discharged at the
concrete inputs ("", "floor") and ("floor", "!"). -/
theorem c7_overlap_witness :
    overlapScore "" "floor" = 0 ∧ overlapScore "floor" "!" = 0 := by
  exact ⟨(c7_overlap "" "floor").2.2.2.1 (by decide), (c7_overlap "floor" "!").2.2.2.2 (by decide)⟩

/-! ## Claim C9 -/

theorem levRowNextChecked_eq (x : Char) :
    ∀ (ys : List Char) (prev : List Nat) (left : Nat),
      prev.length = ys.length + 1 →
      levRowNextChecked x ys prev left = some (levRowNext x ys prev left) := by
  intro ys
  induction ys with
  | nil =>
    intro prev left h
    rcases prev with _ | ⟨p, pr⟩
    · simp at h
    · rcases pr with _ | ⟨p2, pr⟩
      · simp only [levRowNextChecked, levRowNext]
      · simp at h
  | cons y ys ih =>
    intro prev left h
    rcases prev with _ | ⟨p0, pr⟩
    · simp at h
    · rcases pr with _ | ⟨p1, ps⟩
      · simp at h
      · have hlen : (p1 :: ps).length = ys.length + 1 := by
          simpa using h
        simp only [levRowNextChecked, levRowNext]
        rw [ih (p1 :: ps) _ hlen]
        rfl

theorem levRowNext_length (x : Char) :
    ∀ (ys : List Char) (prev : List Nat) (left : Nat),
      prev.length = ys.length + 1 → (levRowNext x ys prev left).length = ys.length := by
  intro ys
  induction ys with
  | nil =>
    intro prev left h
    rw [levRowNext_nil]
    rfl
  | cons y ys ih =>
    intro prev left h
    rcases prev with _ | ⟨p0, pr⟩
    · simp at h
    · rcases pr with _ | ⟨p1, ps⟩
      · simp at h
      · have hlen : (p1 :: ps).length = ys.length + 1 := by
          simpa using h
        rw [levRowNext_cons]
        simp [ih (p1 :: ps) _ hlen]

theorem levRowsAuxChecked_eq (b : List Char) :
    ∀ (xs : List Char) (row : List Nat) (i : Nat),
      row.length = b.length + 1 →
      levRowsAuxChecked b xs row i = some (levRowsAux b xs row i) := by
  intro xs
  induction xs with
  | nil =>
    intro row i h
    simp only [levRowsAuxChecked, levRowsAux]
  | cons x xs ih =>
    intro row i h
    simp only [levRowsAuxChecked, levRowsAux]
    rw [levRowNextChecked_eq x b row (i + 1) h, Option.some_bind]
    exact ih _ _ (by simp [levRowNext_length x b row (i + 1) h])

theorem levRowsAux_ne_nil (b : List Char) :
    ∀ (xs : List Char) (row : List Nat) (i : Nat), row ≠ [] → levRowsAux b xs row i ≠ [] := by
  intro xs
  induction xs with
  | nil => intro row i h; simpa [levRowsAux] using h
  | cons x xs ih =>
    intro row i h
    simp only [levRowsAux]
    exact ih _ _ (by simp)

theorem levenshteinChecked_eq (a b : String) :
    levenshteinChecked a b = some (levenshtein a b) := by
  unfold levenshteinChecked levenshtein
  by_cases h : (normalize a).length = 0 ∨ (normalize b).length = 0
  · rw [if_pos h, if_pos h]
  · rw [if_neg h, if_neg h]
    have hlen : (List.range ((normalize b).length + 1)).length = (normalize b).data.length + 1 := by
      simp [List.length_range]
    rw [levRowsAuxChecked_eq (normalize b).data (normalize a).data _ 0 hlen, Option.some_bind]
    have hne : levRowsAux (normalize b).data (normalize a).data
        (List.range ((normalize b).length + 1)) 0 ≠ [] := by
      refine levRowsAux_ne_nil _ _ _ _ ?_
      have : 0 < (List.range ((normalize b).length + 1)).length := by
        simp [List.length_range]
      exact List.ne_nil_of_length_pos this
    rcases hx : (levRowsAux (normalize b).data (normalize a).data
        (List.range ((normalize b).length + 1)) 0).getLast? with _ | v
    · exact absurd (List.getLast?_eq_none_iff.mp hx) hne
    · rw [List.getLastD_eq_getLast?, hx]
      rfl

theorem overlapScoreChecked_eq (q hay : String) :
    overlapScoreChecked q hay = some (overlapScore q hay) := by
  unfold overlapScoreChecked overlapScore safeDiv
  by_cases hq : (tokens q).isEmpty
  · simp [hq]
  · by_cases hh : (tokens hay).isEmpty
    · simp [hq, hh]
    · have hpos : 0 < max (tokens q).length (tokens hay).length := by
        have : tokens q ≠ [] := by simpa [List.isEmpty_iff] using hq
        have := List.length_pos.mpr this
        omega
      have hne : (max (tokens q).length (tokens hay).length : ℚ) ≠ 0 := by
        have hq2 : (0 : ℚ) < (max (tokens q).length (tokens hay).length : ℚ) := by
          exact_mod_cast hpos
        exact ne_of_gt hq2
      simp [hq, hh, hne]

/-- Claim C9: the embedded `normalize`, `levenshtein` (distance),
`overlapScore` (overlap), `searchIndex` (rank) and
`getDidYouMeanSuggestions` (suggest) are total Lean functions; moreover
the checked variants of distance and overlap — which return `none`
exactly where the JS source could produce `NaN` or an `undefined` array
read (a zero division in overlap, an out-of-bounds dp access in
distance) — always return `some` of the plain value, for every input
including empty strings and empty keyword lists. -/
theorem c9_total (a b q hay : String) :
    levenshteinChecked a b = some (levenshtein a b) ∧
      overlapScoreChecked q hay = some (overlapScore q hay) :=
  ⟨levenshteinChecked_eq a b, overlapScoreChecked_eq q hay⟩

/-! ## Claim C8: normalize is idempotent -/

theorem alnum_not_space {c : Char} (h : isLowerAlnum c = true) : isJsSpace c = false := by
  simp only [isLowerAlnum, decide_eq_true_eq] at h
  simp only [isJsSpace, decide_eq_false_iff_not]
  omega

theorem space_eq_of_norm {c : Char} (hsp : isJsSpace c = true)
    (h : isLowerAlnum c = true ∨ c = ' ') : c = ' ' := by
  rcases h with h | h
  · rw [alnum_not_space h] at hsp
    cases hsp
  · exact h

theorem toLower_id_of_norm {c : Char} (h : isLowerAlnum c = true ∨ c = ' ') :
    Char.toLower c = c := by
  rcases h with h | h
  · have hn : ¬(c.toNat ≥ 65 ∧ c.toNat ≤ 90) := by
      simp only [isLowerAlnum, decide_eq_true_eq] at h
      omega
    simp [Char.toLower, hn]
  · subst h
    decide

theorem toLower_space_eq (c : Char) : isJsSpace (Char.toLower c) = isJsSpace c := by
  by_cases h : c.toNat ≥ 65 ∧ c.toNat ≤ 90
  · have h1 : (Char.toLower c).toNat = c.toNat + 32 := by
      rw [Char.toLower]
      rw [if_pos]
      · rw [Char.ofNat, dif_pos (Or.inl (by omega))]
        rfl
      · exact ⟨h.1, h.2⟩
    have h2 : isJsSpace (Char.toLower c) = false := by
      simp only [isJsSpace, h1, decide_eq_false_iff_not]
      omega
    have h3 : isJsSpace c = false := by
      simp only [isJsSpace, decide_eq_false_iff_not]
      omega
    rw [h2, h3]
  · simp [Char.toLower, h]

theorem sanitize_chars {x : Char} {l : List Char} (h : x ∈ sanitize l) :
    isLowerAlnum x = true ∨ isJsSpace x = true := by
  rcases List.mem_map.mp h with ⟨c, _, rfl⟩
  by_cases hc : (isLowerAlnum c || isJsSpace c) = true
  · rw [if_pos hc]
    simpa using hc
  · rw [if_neg hc]
    right
    decide

theorem collapseWs_two (c d : Char) (rest : List Char) :
    collapseWs (c :: d :: rest) =
      if isJsSpace c && isJsSpace d then collapseWs (d :: rest)
      else (if isJsSpace c then ' ' else c) :: collapseWs (d :: rest) := rfl

theorem collapse_cons_not {c : Char} (h : isJsSpace c = false) (t : List Char) :
    collapseWs (c :: t) = c :: collapseWs t := by
  cases t with
  | nil => simp [collapseWs, h]
  | cons d rest => simp [collapseWs_two, h]

theorem collapse_cons_sp : ∀ (t : List Char) {c : Char}, isJsSpace c = true →
    collapseWs (c :: t) = ' ' :: collapseWs (t.dropWhile isJsSpace) := by
  intro t
  induction t with
  | nil =>
    intro c h
    simp [collapseWs, h]
  | cons d rest ih =>
    intro c h
    by_cases hd : isJsSpace d = true
    · rw [collapseWs_two, if_pos (by simp [h, hd]), ih hd]
      simp [List.dropWhile_cons, hd]
    · rw [collapseWs_two, if_neg (by simp [h, hd]), if_pos h]
      simp [List.dropWhile_cons, hd]

theorem collapse_chars : ∀ (l : List Char) {x : Char}, x ∈ collapseWs l →
    (x ∈ l ∧ isJsSpace x = false) ∨ x = ' ' := by
  intro l
  induction l with
  | nil =>
    intro x h
    simp [collapseWs] at h
  | cons c t ih =>
    intro x h
    cases t with
    | nil =>
      by_cases hc : isJsSpace c = true
      · simp [collapseWs, hc] at h
        right
        exact h
      · simp [collapseWs, hc] at h
        subst h
        left
        exact ⟨by simp, by simpa using hc⟩
    | cons d rest =>
      by_cases hcd : (isJsSpace c && isJsSpace d) = true
      · rw [collapseWs_two, if_pos hcd] at h
        rcases ih h with ⟨h1, h2⟩ | h1
        · exact Or.inl ⟨List.mem_cons_of_mem c h1, h2⟩
        · exact Or.inr h1
      · rw [collapseWs_two, if_neg hcd] at h
        rcases List.mem_cons.mp h with h1 | h1
        · by_cases hc : isJsSpace c = true
          · rw [if_pos hc] at h1
            exact Or.inr h1
          · rw [if_neg hc] at h1
            subst h1
            exact Or.inl ⟨by simp, by simpa using hc⟩
        · rcases ih h1 with ⟨h2, h3⟩ | h2
          · exact Or.inl ⟨List.mem_cons_of_mem c h2, h3⟩
          · exact Or.inr h2

theorem collapse_head : ∀ (rest : List Char) (d : Char),
    (collapseWs (d :: rest)).head? = some (if isJsSpace d = true then ' ' else d) := by
  intro rest
  induction rest with
  | nil =>
    intro d
    by_cases h : isJsSpace d = true <;> simp [collapseWs, h]
  | cons e rest2 ih =>
    intro d
    by_cases hde : (isJsSpace d && isJsSpace e) = true
    · rw [collapseWs_two, if_pos hde, ih e]
      rcases (by simpa using hde : isJsSpace d = true ∧ isJsSpace e = true) with ⟨h1, h2⟩
      simp [h1, h2]
    · rw [collapseWs_two, if_neg hde]
      simp

theorem collapse_chain : ∀ l : List Char,
    List.Chain' (fun a b => ¬(isJsSpace a = true ∧ isJsSpace b = true)) (collapseWs l) := by
  intro l
  induction l with
  | nil => simp [collapseWs]
  | cons c t ih =>
    cases t with
    | nil =>
      by_cases h : isJsSpace c = true <;> simp [collapseWs, h]
    | cons d rest =>
      by_cases hcd : (isJsSpace c && isJsSpace d) = true
      · rw [collapseWs_two, if_pos hcd]
        exact ih
      · rw [collapseWs_two, if_neg hcd]
        refine List.chain'_cons'.mpr ⟨?_, ih⟩
        intro y hy
        rw [collapse_head rest d] at hy
        have hy2 : y = if isJsSpace d = true then ' ' else d := by
          simpa using hy.symm
        by_cases hc : isJsSpace c = true
        · have hd : isJsSpace d = false := by
            rcases Bool.and_eq_false_iff.mp (Bool.not_eq_true _ ▸ hcd : (isJsSpace c && isJsSpace d) = false) with h1 | h1
            · rw [hc] at h1; cases h1
            · exact h1
          rw [if_neg (by simp [hd])] at hy2
          subst hy2
          intro hcontra
          rw [hd] at hcontra
          exact absurd hcontra.2 (by simp)
        · rw [if_neg hc]
          intro hcontra
          exact hc hcontra.1

theorem chain'_dropWhile {R : Char → Char → Prop} {l : List Char}
    (h : List.Chain' R l) (p : Char → Bool) : List.Chain' R (l.dropWhile p) := by
  have hsplit := List.takeWhile_append_dropWhile p l
  rw [← hsplit] at h
  exact (List.chain'_append.mp h).2.1

theorem chain'_rev_symm {l : List Char}
    (h : List.Chain' (fun a b => ¬(isJsSpace a = true ∧ isJsSpace b = true)) l) :
    List.Chain' (fun a b => ¬(isJsSpace a = true ∧ isJsSpace b = true)) l.reverse := by
  rw [List.chain'_reverse]
  unfold flip
  exact h.imp (fun a b hab hcon => hab ⟨hcon.2, hcon.1⟩)

theorem chain'_trimWs {l : List Char}
    (h : List.Chain' (fun a b => ¬(isJsSpace a = true ∧ isJsSpace b = true)) l) :
    List.Chain' (fun a b => ¬(isJsSpace a = true ∧ isJsSpace b = true)) (trimWs l) := by
  unfold trimWs trimRight
  exact chain'_rev_symm (chain'_dropWhile (chain'_rev_symm (chain'_dropWhile h isJsSpace)) isJsSpace)

theorem dropWhile_head_not {p : Char → Bool} : ∀ {l : List Char} {c : Char},
    (l.dropWhile p).head? = some c → p c = false := by
  intro l
  induction l with
  | nil =>
    intro c h
    simp at h
  | cons a t ih =>
    intro c h
    by_cases ha : p a = true
    · rw [List.dropWhile_cons, if_pos ha] at h
      exact ih h
    · rw [List.dropWhile_cons, if_neg ha] at h
      simp only [List.head?_cons, Option.some.injEq] at h
      rw [← h]
      simpa using ha

theorem trimWs_head_not {l : List Char} {c : Char} (h : (trimWs l).head? = some c) :
    isJsSpace c = false := by
  unfold trimWs trimRight at h
  have hne : ((l.dropWhile isJsSpace).reverse.dropWhile isJsSpace).reverse ≠ [] := by
    intro hnil
    rw [hnil] at h
    cases h
  have hpre : l.dropWhile isJsSpace =
      ((l.dropWhile isJsSpace).reverse.dropWhile isJsSpace).reverse ++
        ((l.dropWhile isJsSpace).reverse.takeWhile isJsSpace).reverse := by
    rw [← List.reverse_append, List.takeWhile_append_dropWhile, List.reverse_reverse]
  have hhead : (l.dropWhile isJsSpace).head? = some c := by
    rw [hpre, List.head?_append_of_ne_nil _ hne, h]
  exact dropWhile_head_not hhead

theorem trimRight_getLast_not {X : List Char} {c : Char}
    (h : (trimRight X).getLast? = some c) : isJsSpace c = false := by
  unfold trimRight at h
  rw [← List.head?_reverse, List.reverse_reverse] at h
  exact dropWhile_head_not h

theorem map_toLower_id {l : List Char} (h : ∀ x ∈ l, isLowerAlnum x = true ∨ x = ' ') :
    l.map Char.toLower = l :=
  (List.map_congr_left (fun a ha => toLower_id_of_norm (h a ha))).trans (List.map_id l)

theorem sanitize_id {l : List Char} (h : ∀ x ∈ l, isLowerAlnum x = true ∨ x = ' ') :
    sanitize l = l := by
  unfold sanitize
  refine (List.map_congr_left (fun a ha => ?_)).trans (List.map_id l)
  rcases h a ha with h1 | h1
  · simp [h1]
  · subst h1
    simp

theorem collapse_id : ∀ l : List Char,
    (∀ x ∈ l, isLowerAlnum x = true ∨ x = ' ') →
    List.Chain' (fun a b => ¬(isJsSpace a = true ∧ isJsSpace b = true)) l →
    collapseWs l = l := by
  intro l
  induction l with
  | nil =>
    intro _ _
    rfl
  | cons c t ih =>
    intro hchars hchain
    cases t with
    | nil =>
      rcases hchars c (by simp) with h1 | h1
      · simp [collapseWs, alnum_not_space h1]
      · subst h1
        simp [collapseWs]
    | cons d rest =>
      have hcd : ¬(isJsSpace c = true ∧ isJsSpace d = true) := (List.chain'_cons.mp hchain).1
      have htail := (List.chain'_cons.mp hchain).2
      have hbool : (isJsSpace c && isJsSpace d) = false := by
        by_cases h1 : isJsSpace c = true <;> by_cases h2 : isJsSpace d = true <;>
          simp [h1, h2] at hcd ⊢
      rw [collapseWs_two, if_neg (by simp [hbool])]
      rw [ih (fun x hx => hchars x (List.mem_cons_of_mem c hx)) htail]
      by_cases hc : isJsSpace c = true
      · rw [if_pos hc, space_eq_of_norm hc (hchars c (by simp))]
      · rw [if_neg hc]

theorem mem_trimWs {x : Char} {l : List Char} (h : x ∈ trimWs l) : x ∈ l := by
  unfold trimWs trimRight at h
  have h1 := List.mem_reverse.mp h
  have h2 := List.IsSuffix.mem h1 (List.dropWhile_suffix isJsSpace)
  have h3 := List.mem_reverse.mp h2
  exact List.IsSuffix.mem h3 (List.dropWhile_suffix isJsSpace)

theorem normalize_chars (s : String) :
    ∀ x ∈ (normalize s).data, isLowerAlnum x = true ∨ x = ' ' := by
  intro x hx
  have h1 : x ∈ collapseWs (sanitize (s.data.map Char.toLower)) := mem_trimWs hx
  rcases collapse_chars _ h1 with ⟨h2, h3⟩ | h2
  · rcases sanitize_chars h2 with h4 | h4
    · exact Or.inl h4
    · rw [h4] at h3
      cases h3
  · exact Or.inr h2

theorem normalize_chain (s : String) :
    List.Chain' (fun a b => ¬(isJsSpace a = true ∧ isJsSpace b = true)) (normalize s).data :=
  chain'_trimWs (collapse_chain _)

theorem normalize_dropWhile_eq (s : String) :
    (normalize s).data.dropWhile isJsSpace = (normalize s).data := by
  cases hd : (normalize s).data with
  | nil => rfl
  | cons c t =>
    have hsp : isJsSpace c = false := by
      refine trimWs_head_not (l := collapseWs (sanitize (s.data.map Char.toLower))) ?_
      rw [show trimWs (collapseWs (sanitize (s.data.map Char.toLower))) = (normalize s).data
        from rfl, hd]
      rfl
    rw [List.dropWhile_cons, if_neg (by simp [hsp])]

theorem normalize_trimRight_eq (s : String) :
    trimRight (normalize s).data = (normalize s).data := by
  cases hult : (normalize s).data.getLast? with
  | none =>
    rw [List.getLast?_eq_none_iff.mp hult]
    rfl
  | some c =>
    have hcsp : isJsSpace c = false := by
      refine trimRight_getLast_not
        (X := (collapseWs (sanitize (s.data.map Char.toLower))).dropWhile isJsSpace) ?_
      rw [show trimRight ((collapseWs (sanitize (s.data.map Char.toLower))).dropWhile isJsSpace) =
        (normalize s).data from rfl, hult]
    unfold trimRight
    have hrevhead : (normalize s).data.reverse.head? = some c := by
      rw [List.head?_reverse, hult]
    cases hrev : (normalize s).data.reverse with
    | nil =>
      simp only [List.dropWhile_nil, List.reverse_nil]
      have h0 : (normalize s).data = [] := by
        have := congrArg List.reverse hrev
        simpa using this
      rw [h0]
    | cons r rt =>
      rw [hrev] at hrevhead
      simp only [List.head?_cons, Option.some.injEq] at hrevhead
      rw [List.dropWhile_cons, if_neg (by rw [hrevhead]; simp [hcsp]), ← hrev,
        List.reverse_reverse]

theorem normalize_idem (s : String) : normalize (normalize s) = normalize s := by
  have hchars := normalize_chars s
  have hchain := normalize_chain s
  show (⟨trimWs (collapseWs (sanitize ((normalize s).data.map Char.toLower)))⟩ : String) =
    normalize s
  rw [map_toLower_id hchars, sanitize_id hchars, collapse_id _ hchars hchain]
  show (⟨trimRight ((normalize s).data.dropWhile isJsSpace)⟩ : String) = normalize s
  rw [normalize_dropWhile_eq, normalize_trimRight_eq]

/-- Claim C8: `normalize` is idempotent: normalizing an already-normalized
string changes nothing, because the output contains only lower-case
alphanumerics and single interior spaces, with no leading or trailing
whitespace. -/
theorem c8_normalize_idem (x : String) : normalize (normalize x) = normalize x :=
  normalize_idem x

/-! ## Claim C4: the suggestion engine matches the spec wording -/

theorem dropWhile_append_all {p : List Char} (hp : ∀ c ∈ p, isJsSpace c = true)
    (t : List Char) : List.dropWhile isJsSpace (p ++ t) = List.dropWhile isJsSpace t := by
  induction p with
  | nil => rfl
  | cons c p ih =>
    rw [List.cons_append, List.dropWhile_cons, if_pos (hp c (by simp))]
    exact ih (fun x hx => hp x (List.mem_cons_of_mem c hx))

theorem dropWhile_all {p : List Char} (hp : ∀ c ∈ p, isJsSpace c = true) :
    List.dropWhile isJsSpace p = [] := by
  have := dropWhile_append_all hp []
  simpa using this

theorem dropWhile_append_exists {u : List Char} (hu : ∃ x ∈ u, isJsSpace x = false)
    (v : List Char) :
    List.dropWhile isJsSpace (u ++ v) = List.dropWhile isJsSpace u ++ v := by
  induction u with
  | nil => simp at hu
  | cons c u ih =>
    by_cases hc : isJsSpace c = true
    · rw [List.cons_append, List.dropWhile_cons, if_pos hc, List.dropWhile_cons, if_pos hc]
      refine ih ?_
      rcases hu with ⟨x, hx, hxs⟩
      rcases List.mem_cons.mp hx with h1 | h1
      · subst h1
        rw [hc] at hxs
        cases hxs
      · exact ⟨x, h1, hxs⟩
    · rw [List.cons_append, List.dropWhile_cons, if_neg hc, List.dropWhile_cons, if_neg hc]
      rfl

theorem trim_sp_cons {c : Char} (h : isJsSpace c = true) (X : List Char) :
    trimWs (c :: X) = trimWs X := by
  unfold trimWs
  rw [List.dropWhile_cons, if_pos h]

theorem trim_collapse_dropWhile (t : List Char) :
    trimWs (collapseWs (List.dropWhile isJsSpace t)) = trimWs (collapseWs t) := by
  cases t with
  | nil => rfl
  | cons c t =>
    by_cases hc : isJsSpace c = true
    · rw [List.dropWhile_cons, if_pos hc, collapse_cons_sp t hc, trim_sp_cons (by decide)]
    · rw [List.dropWhile_cons, if_neg hc]

theorem trim_collapse_sp_lead {p : List Char} (hp : ∀ c ∈ p, isJsSpace c = true)
    (t : List Char) : trimWs (collapseWs (p ++ t)) = trimWs (collapseWs t) := by
  cases p with
  | nil => rfl
  | cons c p =>
    have hc : isJsSpace c = true := hp c (by simp)
    rw [List.cons_append, collapse_cons_sp _ hc, trim_sp_cons (by decide),
      dropWhile_append_all (fun x hx => hp x (List.mem_cons_of_mem c hx)) t,
      trim_collapse_dropWhile]

theorem collapse_mem_nonsp : ∀ {l : List Char} {x : Char}, x ∈ l → isJsSpace x = false →
    x ∈ collapseWs l := by
  intro l
  induction l with
  | nil =>
    intro x hx _
    simp at hx
  | cons c t ih =>
    intro x hx hxs
    cases t with
    | nil =>
      rcases List.mem_cons.mp hx with h1 | h1
      · subst h1
        simp [collapseWs, hxs]
      · simp at h1
    | cons d rest =>
      by_cases hcd : (isJsSpace c && isJsSpace d) = true
      · rw [collapseWs_two, if_pos hcd]
        rcases List.mem_cons.mp hx with h1 | h1
        · subst h1
          rw [(Bool.and_eq_true _ _).mp hcd |>.1] at hxs
          cases hxs
        · exact ih h1 hxs
      · rw [collapseWs_two, if_neg hcd]
        rcases List.mem_cons.mp hx with h1 | h1
        · subst h1
          rw [if_neg (by simp [hxs])]
          exact List.mem_cons_self _ _
        · exact List.mem_cons_of_mem _ (ih h1 hxs)

theorem collapse_all_sp {l : List Char} (h : ∀ x ∈ l, isJsSpace x = true) :
    ∀ x ∈ collapseWs l, isJsSpace x = true := by
  intro x hx
  rcases collapse_chars l hx with ⟨h1, h2⟩ | h1
  · rw [h x h1] at h2
    cases h2
  · subst h1
    decide

theorem trimRight_cons_exists {X : List Char} (h : ∃ x ∈ X, isJsSpace x = false)
    (e : Char) : trimRight (e :: X) = e :: trimRight X := by
  unfold trimRight
  have hrev : ∃ x ∈ X.reverse, isJsSpace x = false := by
    rcases h with ⟨x, hx, hxs⟩
    exact ⟨x, List.mem_reverse.mpr hx, hxs⟩
  rw [List.reverse_cons, dropWhile_append_exists hrev [e], List.reverse_append]
  rfl

theorem trimRight_cons_all_sp {X : List Char} (h : ∀ x ∈ X, isJsSpace x = true) (e : Char) :
    trimRight (e :: X) = if isJsSpace e = true then [] else [e] := by
  unfold trimRight
  have hall : ∀ x ∈ X.reverse, isJsSpace x = true := fun x hx =>
    h x (List.mem_reverse.mp hx)
  rw [List.reverse_cons, dropWhile_append_all hall [e]]
  by_cases he : isJsSpace e = true
  · rw [List.dropWhile_cons, if_pos he, if_pos he]
    simp
  · rw [List.dropWhile_cons, if_neg he, if_neg he]
    simp

theorem trimRight_collapse_snoc {c : Char} (hc : isJsSpace c = true) :
    ∀ z : List Char, trimRight (collapseWs (z ++ [c])) = trimRight (collapseWs z) := by
  intro z
  induction z with
  | nil =>
    rw [List.nil_append]
    rw [show collapseWs [c] = [' '] from by simp [collapseWs, hc]]
    rfl
  | cons a z ih =>
    cases z with
    | nil =>
      by_cases ha : isJsSpace a = true
      · show trimRight (collapseWs (a :: c :: [])) = trimRight (collapseWs [a])
        rw [collapseWs_two, if_pos (by simp [ha, hc])]
        rw [show collapseWs [c] = [' '] from by simp [collapseWs, hc]]
        rw [show collapseWs [a] = [' '] from by simp [collapseWs, ha]]
      · show trimRight (collapseWs (a :: c :: [])) = trimRight (collapseWs [a])
        rw [collapseWs_two, if_neg (by simp [ha]), if_neg ha]
        rw [show collapseWs [c] = [' '] from by simp [collapseWs, hc]]
        rw [show collapseWs [a] = [a] from by simp [collapseWs, ha]]
        rw [trimRight_cons_all_sp (by intro x hx; rw [List.mem_singleton.mp hx]; decide) a]
        rw [trimRight_cons_all_sp (by intro x hx; simp at hx) a]
    | cons b z2 =>
      by_cases hab : (isJsSpace a && isJsSpace b) = true
      · show trimRight (collapseWs (a :: b :: (z2 ++ [c]))) =
          trimRight (collapseWs (a :: b :: z2))
        rw [collapseWs_two, if_pos hab, collapseWs_two, if_pos hab]
        exact ih
      · show trimRight (collapseWs (a :: b :: (z2 ++ [c]))) =
          trimRight (collapseWs (a :: b :: z2))
        rw [collapseWs_two, if_neg hab, collapseWs_two, if_neg hab]
        by_cases hex : ∃ x ∈ b :: z2, isJsSpace x = false
        · have hex1 : ∃ x ∈ collapseWs (b :: (z2 ++ [c])), isJsSpace x = false := by
            rcases hex with ⟨x, hx, hxs⟩
            refine ⟨x, collapse_mem_nonsp ?_ hxs, hxs⟩
            rcases List.mem_cons.mp hx with h1 | h1
            · subst h1
              exact List.mem_cons_self _ _
            · exact List.mem_cons_of_mem _ (List.mem_append_left _ h1)
          have hex2 : ∃ x ∈ collapseWs (b :: z2), isJsSpace x = false := by
            rcases hex with ⟨x, hx, hxs⟩
            exact ⟨x, collapse_mem_nonsp hx hxs, hxs⟩
          rw [List.cons_append] at ih
          rw [trimRight_cons_exists hex1, trimRight_cons_exists hex2, ih]
        · have hall : ∀ x ∈ b :: z2, isJsSpace x = true := by
            intro x hx
            by_contra hxf
            exact hex ⟨x, hx, by simpa using hxf⟩
          have hall1 : ∀ x ∈ collapseWs (b :: (z2 ++ [c])), isJsSpace x = true := by
            refine collapse_all_sp ?_
            intro x hx
            rcases List.mem_cons.mp hx with h1 | h1
            · subst h1
              exact hall _ (List.mem_cons_self _ _)
            · rcases List.mem_append.mp h1 with h2 | h2
              · exact hall x (List.mem_cons_of_mem b h2)
              · have hxc : x = c := by simpa using h2
                subst hxc
                exact hc
          have hall2 : ∀ x ∈ collapseWs (b :: z2), isJsSpace x = true :=
            collapse_all_sp hall
          rw [trimRight_cons_all_sp hall1 _, trimRight_cons_all_sp hall2 _]

theorem dropWhile_collapse (u : List Char) :
    List.dropWhile isJsSpace (collapseWs u) = collapseWs (List.dropWhile isJsSpace u) := by
  cases u with
  | nil => rfl
  | cons c u =>
    by_cases hc : isJsSpace c = true
    · rw [collapse_cons_sp u hc, List.dropWhile_cons, if_pos (by decide),
        List.dropWhile_cons, if_pos hc]
      cases hdw : List.dropWhile isJsSpace u with
      | nil => rfl
      | cons d u2 =>
        have hd : isJsSpace d = false := dropWhile_head_not (by rw [hdw]; rfl)
        rw [collapse_cons_not hd, List.dropWhile_cons, if_neg (by simp [hd])]
    · rw [collapse_cons_not (by simpa using hc), List.dropWhile_cons, if_neg hc,
        List.dropWhile_cons, if_neg hc, collapse_cons_not (by simpa using hc)]

theorem trimRight_collapse_sp_suffix {q : List Char} (hq : ∀ x ∈ q, isJsSpace x = true) :
    ∀ z : List Char, trimRight (collapseWs (z ++ q)) = trimRight (collapseWs z) := by
  induction q using List.reverseRecOn with
  | nil =>
    intro z
    rw [List.append_nil]
  | append_singleton q c ih =>
    intro z
    have hc : isJsSpace c = true := hq c (by simp)
    rw [← List.append_assoc, trimRight_collapse_snoc hc (z ++ q)]
    exact ih (fun x hx => hq x (by simp [hx])) z

theorem trim_collapse_sp_suffix {q : List Char} (hq : ∀ x ∈ q, isJsSpace x = true)
    (t : List Char) : trimWs (collapseWs (t ++ q)) = trimWs (collapseWs t) := by
  unfold trimWs
  rw [dropWhile_collapse, dropWhile_collapse]
  by_cases hex : ∃ x ∈ t, isJsSpace x = false
  · rw [dropWhile_append_exists hex q]
    exact trimRight_collapse_sp_suffix hq _
  · have hall : ∀ x ∈ t, isJsSpace x = true := by
      intro x hx
      by_contra hxf
      exact hex ⟨x, hx, by simpa using hxf⟩
    rw [dropWhile_append_all hall q, dropWhile_all hq, dropWhile_all hall]

theorem toLower_sp_id {c : Char} (h : isJsSpace c = true) : Char.toLower c = c := by
  have hn : ¬(c.toNat ≥ 65 ∧ c.toNat ≤ 90) := by
    simp only [isJsSpace, decide_eq_true_eq] at h
    omega
  simp [Char.toLower, hn]

theorem map_toLower_sp_fix {u : List Char} (h : ∀ x ∈ u, isJsSpace x = true) :
    u.map Char.toLower = u :=
  (List.map_congr_left (fun a ha => toLower_sp_id (h a ha))).trans (List.map_id u)

theorem sanitize_sp_fix {u : List Char} (h : ∀ x ∈ u, isJsSpace x = true) :
    sanitize u = u := by
  unfold sanitize
  refine (List.map_congr_left (fun a ha => ?_)).trans (List.map_id u)
  rw [if_pos (by simp [h a ha])]
  rfl

theorem map_toLower_dropWhile (l : List Char) :
    List.dropWhile isJsSpace (l.map Char.toLower) =
      (List.dropWhile isJsSpace l).map Char.toLower := by
  rw [List.dropWhile_map]
  have hp : (isJsSpace ∘ Char.toLower) = isJsSpace := funext toLower_space_eq
  rw [hp]

theorem map_toLower_trimWs (l : List Char) :
    (trimWs l).map Char.toLower = trimWs (l.map Char.toLower) := by
  unfold trimWs trimRight
  rw [List.map_reverse, ← map_toLower_dropWhile, List.map_reverse, ← map_toLower_dropWhile]

theorem normalize_trim (s : String) : normalize ⟨trimWs s.data⟩ = normalize s := by
  show (⟨trimWs (collapseWs (sanitize ((trimWs s.data).map Char.toLower)))⟩ : String) =
    ⟨trimWs (collapseWs (sanitize (s.data.map Char.toLower)))⟩
  rw [map_toLower_trimWs]
  have key : ∀ m : List Char,
      trimWs (collapseWs (sanitize (trimWs m))) = trimWs (collapseWs (sanitize m)) := by
    intro m
    have hdecomp1 : m = m.takeWhile isJsSpace ++ m.dropWhile isJsSpace :=
      (List.takeWhile_append_dropWhile isJsSpace m).symm
    have hdecomp2 : m.dropWhile isJsSpace =
        trimWs m ++ ((m.dropWhile isJsSpace).reverse.takeWhile isJsSpace).reverse := by
      unfold trimWs trimRight
      rw [← List.reverse_append, List.takeWhile_append_dropWhile, List.reverse_reverse]
    have hp : ∀ x ∈ m.takeWhile isJsSpace, isJsSpace x = true := fun x hx =>
      List.mem_takeWhile_imp hx
    have hq : ∀ x ∈ ((m.dropWhile isJsSpace).reverse.takeWhile isJsSpace).reverse,
        isJsSpace x = true := fun x hx =>
      List.mem_takeWhile_imp (List.mem_reverse.mp hx)
    calc trimWs (collapseWs (sanitize (trimWs m)))
        = trimWs (collapseWs (sanitize (trimWs m) ++
            ((m.dropWhile isJsSpace).reverse.takeWhile isJsSpace).reverse)) := by
          rw [trim_collapse_sp_suffix hq]
      _ = trimWs (collapseWs (sanitize (trimWs m) ++
            sanitize (((m.dropWhile isJsSpace).reverse.takeWhile isJsSpace).reverse))) := by
          rw [sanitize_sp_fix hq]
      _ = trimWs (collapseWs (sanitize (m.dropWhile isJsSpace))) := by
          rw [show sanitize (trimWs m) ++
              sanitize (((m.dropWhile isJsSpace).reverse.takeWhile isJsSpace).reverse) =
              sanitize (m.dropWhile isJsSpace) from by
            unfold sanitize
            rw [← List.map_append, ← hdecomp2]]
      _ = trimWs (collapseWs (m.takeWhile isJsSpace ++ sanitize (m.dropWhile isJsSpace))) := by
          rw [trim_collapse_sp_lead hp]
      _ = trimWs (collapseWs (sanitize (m.takeWhile isJsSpace) ++
            sanitize (m.dropWhile isJsSpace))) := by
          rw [sanitize_sp_fix hp]
      _ = trimWs (collapseWs (sanitize m)) := by
          rw [show sanitize (m.takeWhile isJsSpace) ++ sanitize (m.dropWhile isJsSpace) =
              sanitize m from by
            unfold sanitize
            rw [← List.map_append, ← hdecomp1]]
  rw [key]

theorem tokens_trim (s : String) : tokens ⟨trimWs s.data⟩ = tokens s := by
  unfold tokens
  rw [normalize_trim]

theorem tokens_normalize (s : String) : tokens (normalize s) = tokens s := by
  unfold tokens
  rw [normalize_idem]

theorem overlapScore_normalize_left (q hay : String) :
    overlapScore (normalize q) hay = overlapScore q hay := by
  unfold overlapScore
  rw [tokens_normalize]

theorem levenshtein_normalize_left (q t : String) :
    levenshtein (normalize q) t = levenshtein q t := by
  unfold levenshtein
  rw [normalize_idem]

/-- Claim C4: `getDidYouMeanSuggestions` computes exactly the spec's
combined score `overlap(query, title + " " + joined keywords) +
typoBonus(distance(query, title))` per entry, keeps exactly the entries
with combined score at least 0.35, stable-sorts them by descending score,
and returns the first `limit` entries stripped of the score; a normalized
query shorter than 2 characters yields the empty sequence.  (The source
normalizes the query once up front and trims the haystack; both are
invisible because `normalize` is idempotent and trim-invariant.) -/
theorem c4_suggest_refines_spec (index : List IndexEntry) (query : String) (limit : Nat) :
    getDidYouMeanSuggestions index query limit = specSuggest index query limit := by
  unfold getDidYouMeanSuggestions specSuggest
  by_cases h : (normalize query).length < 2
  · rw [if_pos h, if_pos h]
  · rw [if_neg h, if_neg h]
    have hfun : ∀ item : IndexEntry, suggestionScore item (normalize query) =
        overlapScore query (item.title ++ " " ++ String.intercalate " " item.keywords) +
          typoBonus (levenshtein query item.title) := by
      intro item
      have hov2 : overlapScore query
          (⟨trimWs (item.title ++ " " ++ String.intercalate " " item.keywords).data⟩ : String) =
          overlapScore query (item.title ++ " " ++ String.intercalate " " item.keywords) := by
        unfold overlapScore
        rw [tokens_trim]
      show overlapScore (normalize query)
          (⟨trimWs (item.title ++ " " ++ String.intercalate " " item.keywords).data⟩ : String) +
          typoBonus (levenshtein (normalize query) item.title) =
          overlapScore query (item.title ++ " " ++ String.intercalate " " item.keywords) +
          typoBonus (levenshtein query item.title)
      rw [overlapScore_normalize_left, levenshtein_normalize_left, hov2]
    have hmap : index.map (fun item => (item, suggestionScore item (normalize query))) =
        index.map (fun item => (item,
          overlapScore query (item.title ++ " " ++ String.intercalate " " item.keywords) +
            typoBonus (levenshtein query item.title))) :=
      List.map_congr_left (fun item _ => by rw [hfun item])
    rw [hmap]

end FloorRef
